import Mathlib

set_option maxRecDepth 100000

/-!
Verification of core algorithms of the Amulet-Core repository.

Each definition is a shallow embedding of a function from the Python
sources.  Machine integers are modelled as `Nat`/`Int` with explicit
`% 2 ^ w` where overflow matters; numpy arrays are modelled as `List Nat`
(bit streams are lists of `0`/`1` naturals, mirroring `numpy.unpackbits`
output); fallible code returns `Option`/`Except`.
-/

namespace Amulet

/-! ## Bit-packed array codec (`amulet/formats/anvil2/anvil2_world.py`) -/

/-- The bits of `n % 2 ^ w`, most significant bit first, as `0`/`1` naturals
(the output format of `numpy.unpackbits`). -/
def natToBits : Nat → Nat → List Nat
  | 0, _ => []
  | w + 1, n => natToBits w (n / 2) ++ [n % 2]

/-- Big-endian (MSB-first) bit-list to natural number; this is the value of
`bits.dot(2 ** numpy.arange(len - 1, -1, -1))` before any overflow. -/
def fromBits (l : List Nat) : Nat :=
  l.foldl (fun a b => 2 * a + b) 0

/-- Reinterpret `n % 2 ^ 64` as a signed two's-complement 64-bit value,
the result numpy's wrapping `int64` arithmetic produces for a dot product
whose exact value is congruent to `n` modulo `2 ^ 64`. -/
def toSigned64 (n : Nat) : Int :=
  if n % 2 ^ 64 < 2 ^ 63 then ((n % 2 ^ 64 : Nat) : Int)
  else ((n % 2 ^ 64 : Nat) : Int) - 2 ^ 64

/-- Split a list into `m` consecutive chunks of length `k`
(`numpy.reshape(-1, k)` yields exactly `len / k` rows when `k` divides the
length; callers establish that side condition). -/
def chunksN : Nat → Nat → List α → List (List α)
  | 0, _, _ => []
  | m + 1, k, l => l.take k :: chunksN m k (l.drop k)

/-- The value `int(ceil(log(p, 2)))` computed by the source with floating
point `math.log`; for every palette size the claims quantify over the
floating-point computation is exact and agrees with this integer version
(the least `k` with `p ≤ 2 ^ k`). -/
def ceilLog2 (p : Nat) : Nat :=
  (((List.range (p + 1)).filter (fun k => decide (p ≤ 2 ^ k))).headD 0)

/-- The `bits_per_block = max(4, int(ceil(log(palette_size, 2))))` line of
`_encode_long_array`. -/
def bitsPerBlock (paletteSize : Nat) : Nat :=
  max 4 (ceilLog2 paletteSize)

/-- Body of `_encode_long_array` once `bits_per_block` has been computed:
cast values to big-endian int16 (`v % 2 ^ 16`), keep the low
`bits_per_block` bits of each (`[:, 16 - bits_per_block:]`), reverse the
value order (`[::-1]`), flatten, left-pad with zeros to a multiple of 64
bits (`numpy.pad`), split into 64-bit words (`reshape(-1, 64)` + dot with
int64 powers of two) and reverse the word order (`[::-1]`). -/
def encodeWithBits (dataArray : List Nat) (bitsPerValue : Nat) : List Int :=
  let bits := ((dataArray.reverse).map
    (fun v => natToBits bitsPerValue (v % 2 ^ 16))).flatten
  let pad := (64 - (dataArray.length * bitsPerValue) % 64) % 64
  let padded := List.replicate pad 0 ++ bits
  (((chunksN (padded.length / 64) 64 padded).map
    (fun c => toSigned64 (fromBits c))).reverse)

/-- Shallow embedding of `_encode_long_array(data_array, palette_size)`. -/
def _encode_long_array (dataArray : List Nat) (paletteSize : Nat) : List Int :=
  encodeWithBits dataArray (bitsPerBlock paletteSize)

/-- Shallow embedding of `_decode_long_array(long_array, size)`.  The input
words are signed int64 values (`dtype=">q"`); `numpy.unpackbits` sees their
two's-complement bit patterns, i.e. the bits of `w % 2 ^ 64`.
`bits_per_block = (len(long_array) * 64) // size` (ZeroDivisionError when
`size = 0`, modelled as `none`); `reshape(-1, bits_per_block)` raises a
ValueError unless `bits_per_block` is positive and divides the total bit
count (modelled as `none`); otherwise the bit stream of the reversed word
list is cut into `bits_per_block`-wide groups, each group is converted to
an int64 value, and the reversed value list is truncated to `size`. -/
def _decode_long_array (longArray : List Int) (size : Nat) : Option (List Int) :=
  if size = 0 then none
  else
    let bpb := longArray.length * 64 / size
    let bits := ((longArray.reverse).map
      (fun w => natToBits 64 (w % (2 ^ 64 : Int)).toNat)).flatten
    if bpb = 0 then none
    else if longArray.length * 64 % bpb ≠ 0 then none
    else some ((((chunksN (longArray.length * 64 / bpb) bpb bits).map
      (fun g => toSigned64 (fromBits g))).reverse).take size)

/-! ### Bit-level lemmas -/

theorem natToBits_length (w n : Nat) : (natToBits w n).length = w := by
  induction w generalizing n with
  | zero => rfl
  | succ w ih => simp [natToBits, ih]

theorem natToBits_le_one (w n : Nat) : ∀ b ∈ natToBits w n, b ≤ 1 := by
  induction w generalizing n with
  | zero => simp [natToBits]
  | succ w ih =>
    intro b hb
    simp only [natToBits, List.mem_append, List.mem_singleton] at hb
    rcases hb with hb | hb
    · exact ih _ b hb
    · omega

theorem fromBits_foldl (l : List Nat) (i : Nat) :
    l.foldl (fun a b => 2 * a + b) i = i * 2 ^ l.length + fromBits l := by
  induction l generalizing i with
  | nil => simp [fromBits]
  | cons a t ih =>
    simp only [List.foldl_cons, List.length_cons, fromBits]
    rw [ih (2 * i + a), ih (2 * 0 + a)]
    ring

theorem fromBits_append (l₁ l₂ : List Nat) :
    fromBits (l₁ ++ l₂) = fromBits l₁ * 2 ^ l₂.length + fromBits l₂ := by
  unfold fromBits
  rw [List.foldl_append]
  exact fromBits_foldl l₂ _

theorem fromBits_singleton (b : Nat) : fromBits [b] = b := by
  simp [fromBits]

theorem fromBits_natToBits (w n : Nat) : fromBits (natToBits w n) = n % 2 ^ w := by
  induction w generalizing n with
  | zero => simp [natToBits, fromBits, Nat.mod_one]
  | succ w ih =>
    rw [natToBits, fromBits_append, fromBits_singleton, ih, List.length_singleton,
      pow_succ 2 w, mul_comm ((2 : Nat) ^ w) 2, Nat.mod_mul]
    ring

theorem fromBits_lt (l : List Nat) (h : ∀ b ∈ l, b ≤ 1) :
    fromBits l < 2 ^ l.length := by
  induction l with
  | nil => simp [fromBits]
  | cons a t ih =>
    have ha : a ≤ 1 := h a (List.mem_cons_self a t)
    have ht := ih (fun b hb => h b (List.mem_cons_of_mem a hb))
    have hc : fromBits (a :: t) = a * 2 ^ t.length + fromBits t := by
      rw [← List.singleton_append, fromBits_append, fromBits_singleton]
    rw [hc, List.length_cons, pow_succ]
    nlinarith

theorem natToBits_fromBits (l : List Nat) (h : ∀ b ∈ l, b ≤ 1) :
    natToBits l.length (fromBits l) = l := by
  induction l using List.reverseRecOn with
  | nil => rfl
  | append_singleton t b ih =>
    have hb : b ≤ 1 := h b (by simp)
    have ht : ∀ x ∈ t, x ≤ 1 := fun x hx => h x (by simp [hx])
    rw [List.length_append, List.length_singleton, natToBits,
      fromBits_append, fromBits_singleton, List.length_singleton, pow_one]
    have hdiv : (fromBits t * 2 + b) / 2 = fromBits t := by omega
    have hmod : (fromBits t * 2 + b) % 2 = b := by omega
    rw [hdiv, hmod, ih ht]

theorem chunksN_length (m k : Nat) (l : List α) : (chunksN m k l).length = m := by
  induction m generalizing l with
  | zero => rfl
  | succ m ih => simp [chunksN, ih]

theorem chunksN_flatten_exact (m k : Nat) (l : List α) (h : l.length = m * k) :
    (chunksN m k l).flatten = l := by
  induction m generalizing l with
  | zero =>
    have : l = [] := List.length_eq_zero.mp (by simpa using h)
    simp [chunksN, this]
  | succ m ih =>
    have hk : k ≤ l.length := by
      rw [h, Nat.succ_mul]; omega
    have hdrop : (l.drop k).length = m * k := by
      rw [List.length_drop, h, Nat.succ_mul]; omega
    simp only [chunksN, List.flatten_cons, ih (l.drop k) hdrop]
    exact List.take_append_drop k l

theorem chunksN_mem_length (m k : Nat) (l : List α) (h : l.length = m * k)
    (c : List α) (hc : c ∈ chunksN m k l) : c.length = k := by
  induction m generalizing l with
  | zero => simp [chunksN] at hc
  | succ m ih =>
    have hk : k ≤ l.length := by rw [h, Nat.succ_mul]; omega
    have hdrop : (l.drop k).length = m * k := by
      rw [List.length_drop, h, Nat.succ_mul]; omega
    simp only [chunksN, List.mem_cons] at hc
    rcases hc with rfl | hc
    · simp [List.length_take, Nat.min_eq_left hk]
    · exact ih (l.drop k) hdrop hc

theorem chunksN_of_blocks (k : Nat) (cs : List (List α))
    (h : ∀ c ∈ cs, c.length = k) :
    chunksN cs.length k cs.flatten = cs := by
  induction cs with
  | nil => rfl
  | cons c cs ih =>
    have hc : c.length = k := h c (List.mem_cons_self c cs)
    simp only [List.length_cons, List.flatten_cons, chunksN]
    rw [List.take_left' hc, List.drop_left' hc,
      ih (fun x hx => h x (List.mem_cons_of_mem c hx))]

theorem flatten_length_of_blocks (k : Nat) (cs : List (List α))
    (h : ∀ c ∈ cs, c.length = k) : cs.flatten.length = cs.length * k := by
  induction cs with
  | nil => simp
  | cons c cs ih =>
    have hc : c.length = k := h c (List.mem_cons_self c cs)
    simp only [List.flatten_cons, List.length_append, List.length_cons, hc,
      ih (fun x hx => h x (List.mem_cons_of_mem c hx))]
    ring

theorem chunksN_subset (m k : Nat) (l : List α) (c : List α)
    (hc : c ∈ chunksN m k l) : ∀ x ∈ c, x ∈ l := by
  induction m generalizing l with
  | zero => simp [chunksN] at hc
  | succ m ih =>
    simp only [chunksN, List.mem_cons] at hc
    rcases hc with rfl | hc
    · exact fun x hx => List.take_subset k l hx
    · exact fun x hx => List.drop_subset k l (ih (l.drop k) hc x hx)

theorem toSigned64_of_lt (n : Nat) (h : n < 2 ^ 63) : toSigned64 n = (n : Int) := by
  unfold toSigned64
  have h64 : n < 2 ^ 64 := lt_trans h (by norm_num)
  rw [Nat.mod_eq_of_lt h64, if_pos h]

theorem toSigned64_emod_toNat (n : Nat) (h : n < 2 ^ 64) :
    ((toSigned64 n) % (2 ^ 64 : Int)).toNat = n := by
  have hn : (n : Int) % (2 ^ 64 : Int) = (n : Int) :=
    Int.emod_eq_of_lt (by positivity) (by exact_mod_cast h)
  unfold toSigned64
  rw [Nat.mod_eq_of_lt h]
  split
  · rw [hn, Int.toNat_natCast]
  · have hsub : ((n : Int) - 2 ^ 64) % (2 ^ 64 : Int) = (n : Int) % (2 ^ 64 : Int) := by
      rw [show ((n : Int) - 2 ^ 64) = (n : Int) + 2 ^ 64 * (-1) by ring,
        Int.add_mul_emod_self_left]
    rw [hsub, hn, Int.toNat_natCast]

/-- Success form of `_decode_long_array`: when no reshape error occurs the
result is the reversed, truncated list of group values. -/
theorem decode_some (longArray : List Int) (size : Nat) (hsz : size ≠ 0)
    (hbpb0 : longArray.length * 64 / size ≠ 0)
    (hmod : longArray.length * 64 % (longArray.length * 64 / size) = 0) :
    _decode_long_array longArray size =
      some ((((chunksN (longArray.length * 64 / (longArray.length * 64 / size))
        (longArray.length * 64 / size)
        (((longArray.reverse).map
          (fun w => natToBits 64 (w % (2 ^ 64 : Int)).toNat)).flatten)).map
            (fun g => toSigned64 (fromBits g))).reverse).take size) := by
  unfold _decode_long_array
  simp [hsz, hbpb0, hmod]

/-! ### Round-trip of the codec in the 64-bit-aligned case -/

theorem roundtrip_aligned (values : List Nat) (bpv : Nat)
    (hbpos : 0 < bpv) (hb16 : bpv ≤ 16) (hlen : values ≠ [])
    (hdvd : values.length * bpv % 64 = 0)
    (hv : ∀ v ∈ values, v < 2 ^ bpv) :
    _decode_long_array (encodeWithBits values bpv) values.length
      = some (values.map (fun v : Nat => (v : Int))) := by
  set L := values.length with hL
  set blocks := values.reverse.map (fun v => natToBits bpv (v % 2 ^ 16)) with hblocks
  have hblen : ∀ c ∈ blocks, c.length = bpv := by
    intro c hc
    rw [hblocks] at hc
    obtain ⟨v, _, rfl⟩ := List.mem_map.mp hc
    exact natToBits_length _ _
  have hbbits : ∀ b ∈ blocks.flatten, b ≤ 1 := by
    intro b hb
    obtain ⟨c, hc, hbc⟩ := List.mem_flatten.mp hb
    rw [hblocks] at hc
    obtain ⟨v, _, rfl⟩ := List.mem_map.mp hc
    exact natToBits_le_one _ _ b hbc
  have hblockcount : blocks.length = L := by simp [hblocks, hL]
  have hbitslen : blocks.flatten.length = L * bpv := by
    rw [flatten_length_of_blocks bpv blocks hblen, hblockcount]
  -- the encoder's words
  have henc : encodeWithBits values bpv =
      ((chunksN (L * bpv / 64) 64 blocks.flatten).map
        (fun c => toSigned64 (fromBits c))).reverse := by
    unfold encodeWithBits
    rw [← hblocks, ← hL, hdvd]
    simp [hbitslen]
  set ws := chunksN (L * bpv / 64) 64 blocks.flatten with hws
  have hexact : blocks.flatten.length = (L * bpv / 64) * 64 := by
    rw [hbitslen]; omega
  have hwlen : ∀ c ∈ ws, c.length = 64 := fun c hc =>
    chunksN_mem_length _ _ _ hexact c hc
  have hwcount : ws.length = L * bpv / 64 := chunksN_length _ _ _
  have hLpos : L ≠ 0 := fun h => hlen (List.length_eq_zero.mp (hL ▸ h))
  -- decode's bits-per-block equals bpv
  have hw64 : ws.length * 64 = L * bpv := by rw [hwcount]; omega
  have hbpb : ws.length * 64 / L = bpv := by
    rw [hw64, hL, Nat.mul_div_cancel_left _ (Nat.pos_of_ne_zero hLpos)]
  -- the word list seen by the decoder, reversed back
  have hcbits : ∀ c ∈ ws, ∀ b ∈ c, b ≤ 1 := fun c hc b hb =>
    hbbits b (chunksN_subset _ _ _ c hc b hb)
  have hrecover : (((encodeWithBits values bpv).reverse).map
      (fun w => natToBits 64 (w % (2 ^ 64 : Int)).toNat)).flatten = blocks.flatten := by
    rw [henc, List.reverse_reverse, List.map_map]
    have hpt : ∀ c ∈ ws,
        natToBits 64 ((toSigned64 (fromBits c)) % (2 ^ 64 : Int)).toNat = c := by
      intro c hc
      have h1 : fromBits c < 2 ^ 64 := by
        have := fromBits_lt c (hcbits c hc)
        rwa [hwlen c hc] at this
      rw [toSigned64_emod_toNat _ h1, ← hwlen c hc]
      exact natToBits_fromBits c (hcbits c hc)
    calc (ws.map fun c =>
            natToBits 64 ((toSigned64 (fromBits c)) % (2 ^ 64 : Int)).toNat).flatten
        = (ws.map id).flatten := by
          rw [List.map_congr_left hpt]; rfl
      _ = blocks.flatten := by
          rw [List.map_id]
          exact chunksN_flatten_exact _ _ _ hexact
  -- the length of the encoded word list
  have henclen : (encodeWithBits values bpv).length = ws.length := by
    rw [henc]; simp
  -- decode succeeds and returns the original values
  have hbpbrw : (encodeWithBits values bpv).length * 64 / L = bpv := by
    rw [henclen, hbpb]
  rw [decode_some _ L hLpos (by rw [hbpbrw]; omega)
      (by rw [hbpbrw, henclen, hw64]; exact Nat.mul_mod_left L bpv)]
  rw [hbpbrw, hrecover, henclen, hw64, Nat.mul_div_cancel _ hbpos, ← hblockcount,
    chunksN_of_blocks bpv blocks hblen]
  have hmapv : blocks.map (fun g => toSigned64 (fromBits g))
      = values.reverse.map (fun v : Nat => (v : Int)) := by
    rw [hblocks, List.map_map]
    refine List.map_congr_left ?_
    intro v hv'
    have hvlt : v < 2 ^ bpv := hv v (List.mem_reverse.mp hv')
    have h16 : v % 2 ^ 16 % 2 ^ bpv = v := by
      rw [Nat.mod_mod_of_dvd _ (pow_dvd_pow 2 hb16), Nat.mod_eq_of_lt hvlt]
    have h63 : v < 2 ^ 63 := lt_of_lt_of_le hvlt
      (Nat.pow_le_pow_right (by norm_num) (by omega))
    simp only [Function.comp_apply]
    rw [fromBits_natToBits, h16, toSigned64_of_lt v h63]
  rw [hmapv, List.map_reverse, List.reverse_reverse]
  rw [List.take_of_length_le (by simp [hblockcount, hL])]

theorem fromBits_replicate_zero (n : Nat) : fromBits (List.replicate n 0) = 0 := by
  induction n with
  | zero => rfl
  | succ n ih =>
    rw [List.replicate_succ, ← List.singleton_append, fromBits_append,
      fromBits_singleton, ih]
    simp

theorem le_pow_ceilLog2 (p : Nat) : p ≤ 2 ^ ceilLog2 p := by
  unfold ceilLog2
  have hmem : p ∈ (List.range (p + 1)).filter (fun k => decide (p ≤ 2 ^ k)) := by
    refine List.mem_filter.mpr ⟨List.mem_range.mpr (by omega), ?_⟩
    simpa using (Nat.lt_two_pow p).le
  rcases hf : (List.range (p + 1)).filter (fun k => decide (p ≤ 2 ^ k)) with _ | ⟨a, t⟩
  · rw [hf] at hmem; simp at hmem
  · have : a ∈ (List.range (p + 1)).filter (fun k => decide (p ≤ 2 ^ k)) := by
      rw [hf]; exact List.mem_cons_self a t
    have := (List.mem_filter.mp this).2
    simpa using this

theorem bitsPerBlock_pos (p : Nat) : 0 < bitsPerBlock p := by
  unfold bitsPerBlock; omega

theorem le_pow_bitsPerBlock (p : Nat) : p ≤ 2 ^ bitsPerBlock p :=
  le_trans (le_pow_ceilLog2 p)
    (Nat.pow_le_pow_right (by norm_num) (le_max_right 4 (ceilLog2 p)))

/-! ### Round-trip in the single-value case (`L = 1`, unaligned but the
single padded word is exactly the value) -/

theorem encode_single (v bpv : Nat) (hbpos : 0 < bpv) (hb16 : bpv ≤ 16)
    (hv : v < 2 ^ bpv) : encodeWithBits [v] bpv = [toSigned64 v] := by
  have hv16 : v % 2 ^ 16 % 2 ^ bpv = v := by
    rw [Nat.mod_mod_of_dvd _ (pow_dvd_pow 2 hb16), Nat.mod_eq_of_lt hv]
  have hpad : (64 - (([v] : List Nat).length * bpv) % 64) % 64 = 64 - bpv := by
    simp only [List.length_singleton, one_mul]
    omega
  have hblock : (([v] : List Nat).reverse.map
      (fun v => natToBits bpv (v % 2 ^ 16))).flatten = natToBits bpv (v % 2 ^ 16) := by
    simp
  unfold encodeWithBits
  rw [hblock, hpad]
  have hplen : (List.replicate (64 - bpv) 0 ++ natToBits bpv (v % 2 ^ 16)).length = 64 := by
    rw [List.length_append, List.length_replicate, natToBits_length]
    omega
  dsimp only
  rw [hplen]
  have h64 : (64 : Nat) / 64 = 1 := by norm_num
  rw [h64]
  have htake : (List.replicate (64 - bpv) 0 ++ natToBits bpv (v % 2 ^ 16)).take 64
      = List.replicate (64 - bpv) 0 ++ natToBits bpv (v % 2 ^ 16) :=
    List.take_of_length_le (by rw [hplen])
  show ((chunksN 1 64 _).map _).reverse = _
  rw [show chunksN 1 64 (List.replicate (64 - bpv) 0 ++ natToBits bpv (v % 2 ^ 16))
      = [List.replicate (64 - bpv) 0 ++ natToBits bpv (v % 2 ^ 16)] by
    rw [chunksN, chunksN, htake]]
  have hfb : fromBits (List.replicate (64 - bpv) 0 ++ natToBits bpv (v % 2 ^ 16)) = v := by
    rw [fromBits_append, fromBits_replicate_zero, fromBits_natToBits, hv16]
    ring
  simp only [List.map_cons, List.map_nil, List.reverse_singleton]
  rw [hfb]

theorem roundtrip_single (v bpv : Nat) (hbpos : 0 < bpv) (hb16 : bpv ≤ 16)
    (hv : v < 2 ^ bpv) :
    _decode_long_array (encodeWithBits [v] bpv) 1 = some [(v : Int)] := by
  rw [encode_single v bpv hbpos hb16 hv]
  have hv64 : v < 2 ^ 64 :=
    lt_of_lt_of_le hv (Nat.pow_le_pow_right (by norm_num) (by omega))
  have hv63 : v < 2 ^ 63 :=
    lt_of_lt_of_le hv (Nat.pow_le_pow_right (by norm_num) (by omega))
  have hlen : ([toSigned64 v] : List Int).length = 1 := rfl
  rw [decode_some [toSigned64 v] 1 (by omega) (by simp [hlen])
    (by simp [hlen])]
  rw [hlen]
  have h1 : (1 : Nat) * 64 / 1 = 64 := by norm_num
  have h2 : (1 : Nat) * 64 / ((1 : Nat) * 64 / 1) = 1 := by norm_num
  rw [h1, h2]
  have hbits : (([toSigned64 v] : List Int).reverse.map
      (fun w => natToBits 64 (w % (2 ^ 64 : Int)).toNat)).flatten = natToBits 64 v := by
    simp only [List.reverse_singleton, List.map_cons, List.map_nil,
      List.flatten_cons, List.flatten_nil, List.append_nil]
    rw [toSigned64_emod_toNat v hv64]
  rw [hbits]
  have hchunk : chunksN 1 64 (natToBits 64 v) = [natToBits 64 v] := by
    rw [chunksN, chunksN, List.take_of_length_le (by rw [natToBits_length])]
  rw [hchunk]
  have hval : toSigned64 (fromBits (natToBits 64 v)) = (v : Int) := by
    rw [fromBits_natToBits, Nat.mod_eq_of_lt hv64, toSigned64_of_lt v hv63]
  simp [hval]

/-! ### Claim C1 -/

/-- C1 is false as stated: for the length-16 array `[0, 1, 0, …, 0]` with
palette size 257 (values all below 257), decoding the encoding does not
return the original array (the 9-bit blocks of 16 values do not align with
the 12-bit groups the decoder infers from 3 words and 16 elements). -/
theorem c1_counterexample :
    _decode_long_array
        (_encode_long_array [0, 1, 0, 0, 0, 0, 0, 0, 0, 0, 0, 0, 0, 0, 0, 0] 257) 16
      ≠ some (([0, 1, 0, 0, 0, 0, 0, 0, 0, 0, 0, 0, 0, 0, 0, 0] : List Nat).map
          (fun v : Nat => (v : Int))) := by decide

/-- C1 (amended): the round-trip
`_decode_long_array (_encode_long_array values p) L = values` holds for all
arrays of length `L ∈ {1, 16, 4096}` with entries in `[0, p)` and palette
size `p ∈ {1, 2, 16, 257}` except the combination `L = 16, p = 257`, where
the 144 data bits are not 64-bit aligned and the decoder infers a wrong bit
width. -/
theorem c1_roundtrip (values : List Nat) (p : Nat)
    (hlen : values.length = 1 ∨ values.length = 16 ∨ values.length = 4096)
    (hp : p = 1 ∨ p = 2 ∨ p = 16 ∨ p = 257)
    (hno : ¬(values.length = 16 ∧ p = 257))
    (hv : ∀ v ∈ values, v < p) :
    _decode_long_array (_encode_long_array values p) values.length
      = some (values.map (fun v : Nat => (v : Int))) := by
  have hbp : bitsPerBlock p = 4 ∨ (bitsPerBlock p = 9 ∧ p = 257) := by
    rcases hp with rfl | rfl | rfl | rfl
    · exact Or.inl (by decide)
    · exact Or.inl (by decide)
    · exact Or.inl (by decide)
    · exact Or.inr ⟨by decide, rfl⟩
  have hvb : ∀ v ∈ values, v < 2 ^ bitsPerBlock p := fun v hm =>
    lt_of_lt_of_le (hv v hm) (le_pow_bitsPerBlock p)
  have hbpos : 0 < bitsPerBlock p := bitsPerBlock_pos p
  have hb16 : bitsPerBlock p ≤ 16 := by rcases hbp with h | ⟨h, _⟩ <;> omega
  unfold _encode_long_array
  rcases hlen with h1 | h1 | h1
  · obtain ⟨v, rfl⟩ := List.length_eq_one.mp h1
    have := roundtrip_single v (bitsPerBlock p) hbpos hb16
      (hvb v (List.mem_singleton_self v))
    simpa using this
  · have hb4 : bitsPerBlock p = 4 := by
      rcases hbp with h | ⟨h, rfl⟩
      · exact h
      · exact absurd ⟨h1, rfl⟩ hno
    exact roundtrip_aligned values (bitsPerBlock p) hbpos hb16
      (by intro hn; rw [hn] at h1; simp at h1)
      (by rw [h1, hb4]) hvb
  · exact roundtrip_aligned values (bitsPerBlock p) hbpos hb16
      (by intro hn; rw [hn] at h1; simp at h1)
      (by rcases hbp with h | ⟨h, _⟩ <;> rw [h1, h]) hvb

/-- Witness for C1 (amended): the round-trip at the concrete input `[3]`,
`p = 16`, `L = 1`. -/
theorem c1_roundtrip_witness :
    _decode_long_array (_encode_long_array [3] 16) 1
      = some (([3] : List Nat).map (fun v : Nat => (v : Int))) :=
  c1_roundtrip [3] 16 (Or.inl rfl) (Or.inr (Or.inr (Or.inl rfl)))
    (by decide) (by decide)

/-! ### Claim C8 -/

/-- C8: for every palette size `1 ≤ p ≤ 16`, `_encode_long_array` packs at
`bits_per_value = 4` (the 4-bit floor), and for `p = 17` it packs at
`bits_per_value = 5 = ceil(log2 17)`. -/
theorem c8_bits_floor :
    (∀ p : Nat, 1 ≤ p → p ≤ 16 →
      bitsPerBlock p = 4 ∧
        ∀ values : List Nat, _encode_long_array values p = encodeWithBits values 4)
    ∧ (bitsPerBlock 17 = 5 ∧
        ∀ values : List Nat, _encode_long_array values 17 = encodeWithBits values 5) := by
  constructor
  · intro p h1 h16
    have hb : bitsPerBlock p = 4 := by interval_cases p <;> decide
    exact ⟨hb, fun values => by unfold _encode_long_array; rw [hb]⟩
  · have hb : bitsPerBlock 17 = 5 := by decide
    exact ⟨hb, fun values => by unfold _encode_long_array; rw [hb]⟩

/-- Witness for C8 at the concrete palette sizes 7 and 17. -/
theorem c8_bits_floor_witness :
    (bitsPerBlock 7 = 4 ∧ _encode_long_array [1, 2] 7 = encodeWithBits [1, 2] 4)
    ∧ (bitsPerBlock 17 = 5 ∧ _encode_long_array [1, 2] 17 = encodeWithBits [1, 2] 5) :=
  ⟨⟨(c8_bits_floor.1 7 (by decide) (by decide)).1,
    (c8_bits_floor.1 7 (by decide) (by decide)).2 [1, 2]⟩,
   ⟨c8_bits_floor.2.1, c8_bits_floor.2.2 [1, 2]⟩⟩

/-! ### Claim C3 -/

/-- C3 is false as stated: the single word `[0]` with `element_count = 32`
has implied bit width `64 / 32 = 2`, below the 4-bit floor used on encode,
yet `_decode_long_array` does not fail — it silently returns 32 zeros
(there is no `FormatError` anywhere in the module). -/
theorem c3_counterexample :
    (1 * 64 / 32 < 4) ∧ _decode_long_array [(0 : Int)] 32
      = some (List.replicate 32 (0 : Int)) := by decide

/-- C3 (amended): `_decode_long_array` performs no bit-width validation.
It fails only when the reshape is impossible — `element_count = 0`
(ZeroDivisionError) or an implied bit width that is zero or does not divide
the total bit count (a generic numpy ValueError, not a FormatError); any
input whose implied bit width divides the bit stream is decoded without
error, including implied widths below the 4-bit encode floor. -/
theorem c3_decode_failure_iff (longArray : List Int) (size : Nat) :
    _decode_long_array longArray size = none ↔
      (size = 0 ∨ longArray.length * 64 / size = 0
        ∨ longArray.length * 64 % (longArray.length * 64 / size) ≠ 0) := by
  unfold _decode_long_array
  by_cases h1 : size = 0
  · simp [h1]
  · rw [if_neg h1]
    dsimp only
    by_cases h2 : longArray.length * 64 / size = 0
    · simp [h1, h2]
    · rw [if_neg h2]
      by_cases h3 : longArray.length * 64 % (longArray.length * 64 / size) = 0
      · rw [if_neg (fun hc => hc h3)]
        simp [h1, h2, h3]
      · rw [if_pos h3]
        simp [h1, h2, h3]

/-! ## Region files (`_Anvil2RegionManager` in
`amulet/formats/anvil2/anvil2_world.py`) -/

/-- Modelled from the spec: `world_utils.SECTOR_BYTES` (the `world_utils`
module is not among the sources); §3 of the spec fixes the sector, the
file's allocation granularity, at 4096 bytes. -/
def SECTOR_BYTES : Nat := 4096

/-- A region file on disk: its size as reported by `path.getsize`, the 1024
offset words parsed from the first sector (`numpy.frombuffer(..., ">u4")`),
and its raw bytes (re-read when a chunk record is fetched). -/
structure RegionFileData where
  fileSize : Nat
  offsets : List Nat
  bytes : List Nat

/-- The number of sectors of the file after `load_region`'s truncation
fix-ups: `if file_size & 0xFFF: file_size = (file_size | 0xFFF) + 1`
(round up to a sector boundary — `(x | 0xFFF) + 1 = (x / 4096 + 1) * 4096`
when `x % 4096 ≠ 0`) and `if not file_size: file_size = SECTOR_BYTES * 2`;
the bitmap then has `file_size // SECTOR_BYTES` entries. -/
def sectorCount (fileSize : Nat) : Nat :=
  let s1 := if fileSize % SECTOR_BYTES ≠ 0
    then (fileSize / SECTOR_BYTES + 1) * SECTOR_BYTES else fileSize
  let s2 := if s1 = 0 then SECTOR_BYTES * 2 else s1
  s2 / SECTOR_BYTES

/-- The inner loop of `load_region`:
`for i in range(sector, sector + count): if i >= len(free_sectors): return
False; free_sectors[i] = False`.  `none` models the `return False`. -/
def markRange : List Bool → Nat → Nat → Option (List Bool)
  | fs, _, 0 => some fs
  | fs, s, c + 1 =>
    if s < fs.length then markRange (fs.set s false) (s + 1) c else none

/-- The outer loop of `load_region`: for every offset word, mark the range
`[offset >> 8, (offset >> 8) + (offset & 0xFF))` (here `w / 256` and
`w % 256`) as occupied. -/
def markOffsets : List Bool → List Nat → Option (List Bool)
  | fs, [] => some fs
  | fs, w :: ws =>
    match markRange fs (w / 256) (w % 256) with
    | none => none
    | some fs' => markOffsets fs' ws

/-- Shallow embedding of `_Anvil2RegionManager.load_region` for a region
that is not yet cached: build an all-free bitmap of `sectorCount` sectors,
mark the two header sectors (`free_sectors[0:2] = False, False`), then mark
every offset word's sector range.  `some fs` models `return True` with
in-memory bitmap `fs`.  `none` models the two ways the call does not return
`True`: the loop's `return False`, and — for a file shorter than the two
header sectors — the numpy broadcast ValueError the slice assignment
raises, which also prevents a `True` return. -/
def load_region (f : RegionFileData) : Option (List Bool) :=
  if sectorCount f.fileSize < 2 then none
  else
    let fs := ((List.replicate (sectorCount f.fileSize) true).set 0 false).set 1 false
    markOffsets fs f.offsets

/-- The error outcomes of `load_chunk`: every failure site raises a bare
`Exception()` — the one for a short record carries the message
"Malformed sector/chunk".  No `CorruptRegionError` (or any other exception
class) exists anywhere in the module. -/
inductive ChunkError where
  | exception
  | malformed
deriving DecidableEq

/-- Shallow embedding of `_Anvil2RegionManager.load_chunk` for a freshly
loaded region: fail when `load_region` returns `False`; look up the offset
word at `(cx & 0x1F) + (cz & 0x1F) * 32`; fail on a missing/zero word, a
zero sector count, or a sector range past the end of the bitmap; otherwise
read the record's sectors and return the `length`-byte payload that starts
after the 4-byte big-endian length and 1-byte compression tag
(decompression and NBT parsing of the payload are external collaborators
and are not modelled). -/
def load_chunk (f : RegionFileData) (cx cz : Int) : Except ChunkError (List Nat) :=
  match load_region f with
  | none => Except.error ChunkError.exception
  | some freeSectors =>
    let idx := (cx % 32).toNat + (cz % 32).toNat * 32
    match f.offsets[idx]? with
    | none => Except.error ChunkError.exception
    | some chunkOffset =>
      if chunkOffset = 0 then Except.error ChunkError.exception
      else
        let sectorStart := chunkOffset / 256
        let numSectors := chunkOffset % 256
        if numSectors = 0 then Except.error ChunkError.exception
        else if sectorStart + numSectors > freeSectors.length then
          Except.error ChunkError.exception
        else
          let data := (f.bytes.drop (sectorStart * SECTOR_BYTES)).take
            (numSectors * SECTOR_BYTES)
          if data.length < 5 then Except.error ChunkError.malformed
          else
            let len := data.getD 0 0 * 2 ^ 24 + data.getD 1 0 * 2 ^ 16
              + data.getD 2 0 * 2 ^ 8 + data.getD 3 0
            Except.ok ((data.drop 5).take len)

/-! ### Lemmas about the free-sector bitmap -/

theorem markRange_length (c : Nat) : ∀ (fs : List Bool) (s : Nat) (fs' : List Bool),
    markRange fs s c = some fs' → fs'.length = fs.length := by
  induction c with
  | zero =>
    intro fs s fs' h
    simp only [markRange, Option.some.injEq] at h
    rw [← h]
  | succ c ih =>
    intro fs s fs' h
    simp only [markRange] at h
    split at h
    · have := ih (fs.set s false) (s + 1) fs' h
      simpa using this
    · exact absurd h (by simp)

theorem markRange_none_iff (c : Nat) : ∀ (fs : List Bool) (s : Nat),
    markRange fs s c = none ↔ (0 < c ∧ s + c > fs.length) := by
  induction c with
  | zero => intro fs s; simp [markRange]
  | succ c ih =>
    intro fs s
    simp only [markRange]
    split
    case isTrue h =>
      rw [ih (fs.set s false) (s + 1)]
      simp only [List.length_set]
      omega
    case isFalse h =>
      constructor
      · intro _
        omega
      · intro _
        trivial

theorem markRange_getElem? (c : Nat) : ∀ (fs : List Bool) (s : Nat) (fs' : List Bool),
    markRange fs s c = some fs' → ∀ i : Nat,
      fs'[i]? = if s ≤ i ∧ i < s + c then some false else fs[i]? := by
  induction c with
  | zero =>
    intro fs s fs' h i
    simp only [markRange, Option.some.injEq] at h
    rw [← h, if_neg (by omega)]
  | succ c ih =>
    intro fs s fs' h i
    simp only [markRange] at h
    split at h
    case isTrue hs =>
      rw [ih (fs.set s false) (s + 1) fs' h i]
      by_cases hi : i = s
      · subst hi
        rw [if_neg (by omega), if_pos (by omega)]
        exact List.getElem?_set_self hs
      · by_cases hin : s + 1 ≤ i ∧ i < s + 1 + c
        · rw [if_pos hin, if_pos (by omega)]
        · rw [if_neg hin, if_neg (by omega), List.getElem?_set_ne (by omega)]
    case isFalse hs => exact absurd h (by simp)

theorem markOffsets_length (ws : List Nat) : ∀ (fs fs' : List Bool),
    markOffsets fs ws = some fs' → fs'.length = fs.length := by
  induction ws with
  | nil =>
    intro fs fs' h
    simp only [markOffsets, Option.some.injEq] at h
    rw [← h]
  | cons w ws ih =>
    intro fs fs' h
    simp only [markOffsets] at h
    rcases hm : markRange fs (w / 256) (w % 256) with _ | fs₁
    · rw [hm] at h; exact absurd h (by simp)
    · rw [hm] at h
      rw [ih fs₁ fs' h, markRange_length _ _ _ _ hm]

theorem markOffsets_none_iff (ws : List Nat) : ∀ fs : List Bool,
    markOffsets fs ws = none ↔
      ∃ w ∈ ws, 0 < w % 256 ∧ w / 256 + w % 256 > fs.length := by
  induction ws with
  | nil => intro fs; simp [markOffsets]
  | cons w ws ih =>
    intro fs
    simp only [markOffsets]
    rcases hm : markRange fs (w / 256) (w % 256) with _ | fs₁
    · have hw := (markRange_none_iff _ _ _).mp hm
      simp only [List.mem_cons]
      constructor
      · intro _
        exact ⟨w, Or.inl rfl, hw⟩
      · intro _
        trivial
    · have hw : ¬(0 < w % 256 ∧ w / 256 + w % 256 > fs.length) := by
        intro hcon
        have := (markRange_none_iff (w % 256) fs (w / 256)).mpr hcon
        rw [this] at hm
        exact absurd hm (by simp)
      rw [ih fs₁]
      rw [markRange_length _ _ _ _ hm]
      simp only [List.mem_cons]
      constructor
      · rintro ⟨w', hw', hc⟩
        exact ⟨w', Or.inr hw', hc⟩
      · rintro ⟨w', hw' | hw', hc⟩
        · subst hw'; exact absurd hc hw
        · exact ⟨w', hw', hc⟩

theorem markOffsets_getElem? (ws : List Nat) : ∀ (fs fs' : List Bool),
    markOffsets fs ws = some fs' → ∀ i : Nat,
      fs'[i]? = if ∃ w ∈ ws, w / 256 ≤ i ∧ i < w / 256 + w % 256
        then some false else fs[i]? := by
  induction ws with
  | nil =>
    intro fs fs' h i
    simp only [markOffsets, Option.some.injEq] at h
    rw [← h, if_neg (by simp)]
  | cons w ws ih =>
    intro fs fs' h i
    simp only [markOffsets] at h
    rcases hm : markRange fs (w / 256) (w % 256) with _ | fs₁
    · rw [hm] at h; exact absurd h (by simp)
    · rw [hm] at h
      rw [ih fs₁ fs' h i, markRange_getElem? _ _ _ _ hm i]
      by_cases hws : ∃ w' ∈ ws, w' / 256 ≤ i ∧ i < w' / 256 + w' % 256
      · rw [if_pos hws, if_pos (by
          obtain ⟨w', hw', hc⟩ := hws
          exact ⟨w', List.mem_cons_of_mem w hw', hc⟩)]
      · rw [if_neg hws]
        by_cases hw : w / 256 ≤ i ∧ i < w / 256 + w % 256
        · rw [if_pos hw, if_pos ⟨w, List.mem_cons_self w ws, hw⟩]
        · rw [if_neg hw, if_neg (by
            rintro ⟨w', hw', hc⟩
            rcases List.mem_cons.mp hw' with rfl | hmem
            · exact hw hc
            · exact hws ⟨w', hmem, hc⟩)]

/-! ### Claim C4 -/

/-- C4: after `load_region` returns `True` on a freshly loaded region, the
free-sector bitmap marks as occupied (`False`) exactly sectors 0 and 1 (the
header) plus, for every non-zero offset word, the sectors in
`[word >> 8, (word >> 8) + (word & 0xFF))`; every other sector is free. -/
theorem c4_free_sectors (f : RegionFileData) (fs : List Bool)
    (h : load_region f = some fs) (i : Nat) (hi : i < fs.length) :
    fs[i] = false ↔
      (i < 2 ∨ ∃ w ∈ f.offsets, w ≠ 0 ∧ w / 256 ≤ i ∧ i < w / 256 + w % 256) := by
  unfold load_region at h
  rw [if_neg (by intro hlt; rw [if_pos hlt] at h; exact absurd h (by simp))] at h
  dsimp only at h
  have hlen := markOffsets_length f.offsets _ fs h
  have hget := markOffsets_getElem? f.offsets _ fs h i
  have hsome : fs[i]? = some fs[i] := List.getElem?_eq_getElem hi
  have hsc : i < sectorCount f.fileSize := by
    rw [hlen] at hi
    simpa using hi
  by_cases hP : ∃ w ∈ f.offsets, w / 256 ≤ i ∧ i < w / 256 + w % 256
  · rw [if_pos hP, hsome] at hget
    have hfalse : fs[i] = false := Option.some.inj hget
    obtain ⟨w, hw, hc⟩ := hP
    have hwne : w ≠ 0 := by
      intro h0
      subst h0
      simp at hc
    exact ⟨fun _ => Or.inr ⟨w, hw, hwne, hc⟩, fun _ => hfalse⟩
  · rw [if_neg hP, hsome] at hget
    by_cases h2 : i < 2
    · have hrep : i < (List.replicate (sectorCount f.fileSize) true).length := by
        simpa using hsc
      have h0 : (((List.replicate (sectorCount f.fileSize) true).set 0 false).set
          1 false)[i]? = some false := by
        interval_cases i
        · rw [List.getElem?_set_ne (by omega), List.getElem?_set_self (by simpa)]
        · rw [List.getElem?_set_self (by simpa)]
      rw [h0] at hget
      exact ⟨fun _ => Or.inl h2, fun _ => Option.some.inj hget⟩
    · have h0 : (((List.replicate (sectorCount f.fileSize) true).set 0 false).set
          1 false)[i]? = some true := by
        rw [List.getElem?_set_ne (by omega), List.getElem?_set_ne (by omega),
          List.getElem?_replicate_of_lt hsc]
      rw [h0] at hget
      have htrue : fs[i] = true := Option.some.inj hget
      constructor
      · intro hf
        rw [htrue] at hf
        exact absurd hf (by simp)
      · rintro (hlt | ⟨w, hw, _, hc⟩)
        · omega
        · exact absurd ⟨w, hw, hc⟩ hP

/-- Witness for C4: a 3-sector file whose single offset word `513`
(sector 2, count 1) makes every sector occupied; evaluated at sector 2. -/
theorem c4_free_sectors_witness :
    ([false, false, false] : List Bool)[2] = false ↔
      (2 < 2 ∨ ∃ w ∈ [513], w ≠ 0 ∧ w / 256 ≤ 2 ∧ 2 < w / 256 + w % 256) :=
  c4_free_sectors ⟨12288, [513], []⟩ [false, false, false] (by decide) 2 (by decide)

/-! ### Claim C7 -/

/-- C7 is false as stated: for a region file whose offset word `767`
(sector 2, count 255) references sectors beyond the 2-sector file,
`load_region` does not fail with a `CorruptRegionError` — no such exception
class exists in the module — it returns `False` (a normal return value),
and `load_chunk` then raises a bare `Exception()`. -/
theorem c7_counterexample :
    load_region ⟨0, [767], []⟩ = none ∧
      load_chunk ⟨0, [767], []⟩ 0 0 = Except.error ChunkError.exception :=
  ⟨rfl, rfl⟩

/-- C7 (amended): for every region file (holding at least its 2-sector
header) whose offset table references a sector range extending beyond the
end of the file, `load_region` returns `False` (it raises nothing), and
reading any chunk through that region via `load_chunk` raises a generic
`Exception` — not a `CorruptRegionError`, which does not exist in the
code — rather than returning data. -/
theorem c7_load_error (f : RegionFileData) (hsz : 2 ≤ sectorCount f.fileSize)
    (h : ∃ w ∈ f.offsets, 0 < w % 256 ∧ w / 256 + w % 256 > sectorCount f.fileSize) :
    load_region f = none ∧
      ∀ cx cz : Int, load_chunk f cx cz = Except.error ChunkError.exception := by
  have hnone : load_region f = none := by
    unfold load_region
    rw [if_neg (by omega)]
    dsimp only
    apply (markOffsets_none_iff f.offsets _).mpr
    simpa using h
  refine ⟨hnone, fun cx cz => ?_⟩
  unfold load_chunk
  rw [hnone]

/-- Witness for C7 (amended): a two-sector file whose offset word `515`
(sector 2, count 3) points past the end. -/
theorem c7_load_error_witness :
    load_region ⟨8192, [515], []⟩ = none ∧
      load_chunk ⟨8192, [515], []⟩ 1 2 = Except.error ChunkError.exception :=
  And.intro (c7_load_error ⟨8192, [515], []⟩ (by decide) (by decide)).1
    ((c7_load_error ⟨8192, [515], []⟩ (by decide) (by decide)).2 1 2)

/-! ## History managers (`amulet/api/history/manager/meta.py` and
`amulet/api/level/base_level/base_level.py`) -/

/-- Modelled from the spec: an `ActiveHistoryManager` (the ActiveTracker
capability of §3/§4.5; the base classes are not among the sources).  Its
observable state is an abstract current value, a changed/dirty flag and the
two revision stacks. -/
structure Tracker where
  current : Nat
  changed : Bool
  undoStack : List Nat
  redoStack : List Nat
deriving DecidableEq

/-- Modelled from the spec: `checkpoint() -> bool` returns true iff this
call captured a real change; it pushes the current state and clears the
changed flag. -/
def Tracker.create_undo_point (t : Tracker) : Tracker × Bool :=
  if t.changed then
    ({ t with undoStack := t.current :: t.undoStack, changed := false }, true)
  else (t, false)

/-- Modelled from the spec: `undo()` pops one state, restores it as
current, and pushes the superseded current state onto the redo stack. -/
def Tracker.undo (t : Tracker) : Tracker :=
  match t.undoStack with
  | [] => t
  | s :: rest =>
    { current := s, changed := t.changed, undoStack := rest,
      redoStack := t.current :: t.redoStack }

/-- Modelled from the spec: `restore_last_undo_point()` reverts to the last
checkpoint without consuming the redo stack. -/
def Tracker.restore_last_undo_point (t : Tracker) : Tracker :=
  match t.undoStack with
  | [] => t
  | s :: _ => { t with current := s, changed := false }

/-- Registered managers are identified by an id into a tracker store
(Python manager objects are references into the interpreter heap). -/
abbrev TrackerStore : Type := Nat → Tracker

/-- State of `MetaHistoryManager`: the two registration-ordered manager
lists from the source, plus — modelled from the spec, the
`ContainerHistoryManager` base class is not among the sources — the
snapshot stacks and the inherited `changed` signal (`superChanged`,
the container's own pending-snapshot indicator read by `super().changed`). -/
structure MetaHistoryManager where
  worldManagers : List Nat
  nonWorldManagers : List Nat
  undoStack : List (List Nat)
  redoStack : List (List Nat)
  superChanged : Bool

/-- `MetaHistoryManager._managers(world, non_world)`:
`tuple(self._world_managers) * world + tuple(self._non_world_managers) *
non_world` — multiplying a tuple by a bool keeps or empties it. -/
def MetaHistoryManager.managers (m : MetaHistoryManager) (world nonWorld : Bool) :
    List Nat :=
  (if world then m.worldManagers else [])
    ++ (if nonWorld then m.nonWorldManagers else [])

/-- `MetaHistoryManager.register(manager, is_world_manager)`: append to the
corresponding list. -/
def MetaHistoryManager.register (m : MetaHistoryManager) (i : Nat)
    (isWorldManager : Bool) : MetaHistoryManager :=
  if isWorldManager then { m with worldManagers := m.worldManagers ++ [i] }
  else { m with nonWorldManagers := m.nonWorldManagers ++ [i] }

/-- `MetaHistoryManager.changed`: true if `super().changed` or some world
manager (`self._managers(True, False)`) reports changed. -/
def MetaHistoryManager.changed (m : MetaHistoryManager) (store : TrackerStore) :
    Bool :=
  m.superChanged || (m.managers true false).any (fun i => (store i).changed)

/-- One iteration of the `create_undo_point` loop: call `create_undo_point`
on the manager and append it to the snapshot when it returned `True`. -/
def createSnapshotFold (acc : TrackerStore × List Nat) (i : Nat) :
    TrackerStore × List Nat :=
  let r := (acc.1 i).create_undo_point
  (Function.update acc.1 i r.1, if r.2 then acc.2 ++ [i] else acc.2)

/-- `MetaHistoryManager.create_undo_point(non_world_only)`: run the loop
over `self._managers(not non_world_only, True)` and register the snapshot.
Modelled from the spec: `_register_snapshot` (in the absent container base
class) pushes the snapshot onto the undo stack if it is non-empty and
returns whether it pushed. -/
def MetaHistoryManager.create_undo_point (m : MetaHistoryManager)
    (store : TrackerStore) (nonWorldOnly : Bool) :
    MetaHistoryManager × TrackerStore × Bool :=
  let r := (m.managers (!nonWorldOnly) true).foldl createSnapshotFold (store, [])
  if r.2.isEmpty then (m, r.1, false)
  else ({ m with undoStack := r.2 :: m.undoStack }, r.1, true)

/-- `undo`: pop the top snapshot (modelled from the spec: the container
base class pops it onto the redo stack) and run `MetaHistoryManager._undo`,
which calls `undo()` on every manager in the snapshot in stored order. -/
def MetaHistoryManager.undo (m : MetaHistoryManager) (store : TrackerStore) :
    MetaHistoryManager × TrackerStore :=
  match m.undoStack with
  | [] => (m, store)
  | snap :: rest =>
    ({ m with undoStack := rest, redoStack := snap :: m.redoStack },
     snap.foldl (fun st i => Function.update st i (st i).undo) store)

/-- `MetaHistoryManager.restore_last_undo_point`: forward to every
registered manager (`self._managers(True, True)`). -/
def MetaHistoryManager.restore_last_undo_point (m : MetaHistoryManager)
    (store : TrackerStore) : TrackerStore :=
  (m.managers true true).foldl
    (fun st i => Function.update st i (st i).restore_last_undo_point) store

/-- The slice of `BaseLevel` state the history claims observe: its
`MetaHistoryManager` and the trackers registered with it. -/
structure BaseLevel where
  historyManager : MetaHistoryManager
  trackers : TrackerStore

/-- `BaseLevel.create_undo_point`: forwards to the history manager
(dropping the returned bool). -/
def BaseLevel.create_undo_point (l : BaseLevel) : BaseLevel :=
  let r := l.historyManager.create_undo_point l.trackers false
  ⟨r.1, r.2.1⟩

/-- `BaseLevel.restore_last_undo_point`: forwards to the history
manager. -/
def BaseLevel.restore_last_undo_point (l : BaseLevel) : BaseLevel :=
  ⟨l.historyManager, l.historyManager.restore_last_undo_point l.trackers⟩

/-- Shallow embedding of `BaseLevel.run_operation`: the operation mutates
the level and either raises (`Except.error`) or returns a value.  On an
exception the partially mutated level is restored via
`restore_last_undo_point` and the same exception is re-raised; on success
an undo point is created when `create_undo` is set.  (Generator unpacking
of the operation's result is not modelled; `dimension`/`*args` are folded
into the operation closure.) -/
def BaseLevel.run_operation {ε α : Type} (l : BaseLevel)
    (op : BaseLevel → BaseLevel × Except ε α) (createUndo : Bool) :
    BaseLevel × Except ε α :=
  match op l with
  | (l', Except.error e) => (l'.restore_last_undo_point, Except.error e)
  | (l', Except.ok a) =>
    ((if createUndo then l'.create_undo_point else l'), Except.ok a)

/-! ### Lemmas about the history folds -/

theorem create_undo_point_snd (t : Tracker) :
    (t.create_undo_point).2 = t.changed := by
  by_cases h : t.changed <;> simp [Tracker.create_undo_point, h]

theorem foldl_update_apply (f : Tracker → Tracker) (ids : List Nat) :
    ∀ (store : TrackerStore), ids.Nodup → ∀ j : Nat,
      (ids.foldl (fun st i => Function.update st i (f (st i))) store) j
        = if j ∈ ids then f (store j) else store j := by
  induction ids with
  | nil =>
    intro store _ j
    simp
  | cons a t ih =>
    intro store hnd j
    have ha : a ∉ t := (List.nodup_cons.mp hnd).1
    have hnd' : t.Nodup := (List.nodup_cons.mp hnd).2
    simp only [List.foldl_cons]
    rw [ih _ hnd' j]
    by_cases hj : j = a
    · subst hj
      rw [if_neg ha, if_pos (List.mem_cons_self j t), Function.update_same]
    · rw [Function.update_noteq hj]
      by_cases hjt : j ∈ t
      · rw [if_pos hjt, if_pos (List.mem_cons_of_mem a hjt)]
      · rw [if_neg hjt, if_neg (by simp [hj, hjt])]

theorem createSnapshotFold_spec (ids : List Nat) :
    ∀ (store : TrackerStore) (snap0 : List Nat), ids.Nodup →
      (ids.foldl createSnapshotFold (store, snap0)).2
          = snap0 ++ ids.filter (fun i => (store i).changed)
      ∧ ∀ j : Nat, (ids.foldl createSnapshotFold (store, snap0)).1 j
          = if j ∈ ids then ((store j).create_undo_point).1 else store j := by
  induction ids with
  | nil =>
    intro store snap0 _
    simp
  | cons a t ih =>
    intro store snap0 hnd
    have ha : a ∉ t := (List.nodup_cons.mp hnd).1
    have hnd' : t.Nodup := (List.nodup_cons.mp hnd).2
    have hstep : createSnapshotFold (store, snap0) a
        = (Function.update store a ((store a).create_undo_point).1,
           if (store a).changed then snap0 ++ [a] else snap0) := by
      unfold createSnapshotFold
      dsimp only
      rw [create_undo_point_snd]
    simp only [List.foldl_cons]
    rw [hstep]
    obtain ⟨ih2, ih1⟩ := ih (Function.update store a ((store a).create_undo_point).1)
      (if (store a).changed then snap0 ++ [a] else snap0) hnd'
    constructor
    · rw [ih2]
      have hfc : t.filter
            (fun i => ((Function.update store a
              ((store a).create_undo_point).1) i).changed)
          = t.filter (fun i => (store i).changed) := by
        apply List.filter_congr
        intro j hj
        have hja : j ≠ a := fun he => ha (by rw [← he]; exact hj)
        rw [Function.update_noteq hja]
      rw [hfc]
      by_cases hch : (store a).changed = true
      · rw [if_pos hch, List.filter_cons_of_pos (by simpa using hch),
          List.append_assoc, List.singleton_append]
      · rw [if_neg hch, List.filter_cons_of_neg (by simpa using hch)]
    · intro j
      rw [ih1 j]
      by_cases hj : j = a
      · subst hj
        rw [if_neg ha, if_pos (List.mem_cons_self j t), Function.update_same]
      · rw [Function.update_noteq hj]
        by_cases hjt : j ∈ t
        · rw [if_pos hjt, if_pos (List.mem_cons_of_mem a hjt)]
        · rw [if_neg hjt, if_neg (by simp [hj, hjt])]

theorem any_congr_mem (l : List Nat) (p q : Nat → Bool)
    (h : ∀ i ∈ l, p i = q i) : l.any p = l.any q := by
  induction l with
  | nil => rfl
  | cons a t ih =>
    simp only [List.any_cons]
    rw [h a (List.mem_cons_self a t),
      ih (fun i hi => h i (List.mem_cons_of_mem a hi))]

/-! ### Claim C2 -/

/-- C2: after `create_undo_point()` collects a snapshot (one was pushed),
the snapshot on top of the undo stack is exactly the list of registered
trackers that returned `True` from `create_undo_point()` (equivalently, by
`create_undo_point_snd`, those whose changed flag was set), in registration
order; a subsequent `undo()` applies `Tracker.undo` to exactly the trackers
of that snapshot and leaves every other tracker's state untouched. -/
theorem c2_undo_exactly_changed (m : MetaHistoryManager) (store : TrackerStore)
    (hnd : (m.managers true true).Nodup)
    (hpushed : (m.create_undo_point store false).2.2 = true) :
    ((m.create_undo_point store false).1).undoStack
        = ((m.managers true true).filter (fun i => (store i).changed))
            :: m.undoStack
    ∧ (∀ i ∈ (m.managers true true).filter (fun i => (store i).changed),
        (((m.create_undo_point store false).1).undo
            ((m.create_undo_point store false).2.1)).2 i
          = (((m.create_undo_point store false).2.1) i).undo)
    ∧ ∀ i : Nat,
        i ∉ (m.managers true true).filter (fun i => (store i).changed) →
        (((m.create_undo_point store false).1).undo
            ((m.create_undo_point store false).2.1)).2 i
          = ((m.create_undo_point store false).2.1) i := by
  obtain ⟨hsnap, hstore⟩ :=
    createSnapshotFold_spec (m.managers true true) store [] hnd
  rw [List.nil_append] at hsnap
  set snap := (m.managers true true).filter (fun i => (store i).changed)
    with hsnapdef
  have hcup : m.create_undo_point store false
      = if snap.isEmpty
        then (m, ((m.managers true true).foldl createSnapshotFold (store, [])).1,
          false)
        else ({ m with undoStack := snap :: m.undoStack },
          ((m.managers true true).foldl createSnapshotFold (store, [])).1, true) := by
    unfold MetaHistoryManager.create_undo_point
    dsimp only
    simp only [Bool.not_false]
    rw [hsnap]
  by_cases hemp : snap.isEmpty
  · rw [hcup, if_pos hemp] at hpushed
    exact absurd hpushed (by simp)
  · rw [hcup, if_neg hemp]
    have hsnapnd : snap.Nodup := hnd.filter _
    have hu : (({ m with undoStack := snap :: m.undoStack } :
          MetaHistoryManager).undo
          (((m.managers true true).foldl createSnapshotFold (store, [])).1)).2
        = snap.foldl (fun st i => Function.update st i (st i).undo)
          (((m.managers true true).foldl createSnapshotFold (store, [])).1) := rfl
    dsimp only
    refine ⟨rfl, ?_, ?_⟩
    · intro i hi
      rw [hu, foldl_update_apply Tracker.undo snap _ hsnapnd i, if_pos hi]
    · intro i hi
      rw [hu, foldl_update_apply Tracker.undo snap _ hsnapnd i, if_neg hi]

/-- Concrete instances for the C2 witness: three registered trackers
(world managers 0 and 1, non-world manager 2); trackers 0 and 2 changed,
tracker 1 did not. -/
def c2m : MetaHistoryManager := ⟨[0, 1], [2], [], [], false⟩

/-- The tracker store for the C2 witness. -/
def c2store : TrackerStore := fun i =>
  if i = 0 then ⟨5, true, [], []⟩
  else if i = 2 then ⟨7, true, [], []⟩
  else ⟨9, false, [], []⟩

/-- Witness for C2 at a concrete three-tracker configuration. -/
theorem c2_undo_exactly_changed_witness :
    ((c2m.create_undo_point c2store false).1).undoStack
        = ((c2m.managers true true).filter (fun i => (c2store i).changed))
            :: c2m.undoStack
    ∧ (∀ i ∈ (c2m.managers true true).filter (fun i => (c2store i).changed),
        (((c2m.create_undo_point c2store false).1).undo
            ((c2m.create_undo_point c2store false).2.1)).2 i
          = (((c2m.create_undo_point c2store false).2.1) i).undo)
    ∧ ∀ i : Nat,
        i ∉ (c2m.managers true true).filter (fun i => (c2store i).changed) →
        (((c2m.create_undo_point c2store false).1).undo
            ((c2m.create_undo_point c2store false).2.1)).2 i
          = ((c2m.create_undo_point c2store false).2.1) i :=
  c2_undo_exactly_changed c2m c2store (by decide) rfl

/-! ### Claim C5 -/

/-- C5: if the operation raises, `run_operation` restores the last undo
point — forwarding `restore_last_undo_point` to every registered world and
non-world manager — and re-raises the same exception; the history manager
(in particular its undo stack) is left as the operation left it, so no
undo point is created for the failed operation. -/
theorem c5_run_operation_error {ε α : Type} (l l' : BaseLevel)
    (op : BaseLevel → BaseLevel × Except ε α) (e : ε) (createUndo : Bool)
    (hnd : (l'.historyManager.managers true true).Nodup)
    (h : op l = (l', Except.error e)) :
    l.run_operation op createUndo = (l'.restore_last_undo_point, Except.error e)
    ∧ (l.run_operation op createUndo).1.historyManager = l'.historyManager
    ∧ (∀ i ∈ l'.historyManager.managers true true,
        (l.run_operation op createUndo).1.trackers i
          = (l'.trackers i).restore_last_undo_point)
    ∧ ∀ i : Nat, i ∉ l'.historyManager.managers true true →
        (l.run_operation op createUndo).1.trackers i = l'.trackers i := by
  have hrun : l.run_operation op createUndo
      = (l'.restore_last_undo_point, Except.error e) := by
    unfold BaseLevel.run_operation
    rw [h]
  refine ⟨hrun, by rw [hrun]; rfl, ?_, ?_⟩
  · intro i hi
    rw [hrun]
    show (l'.historyManager.restore_last_undo_point l'.trackers) i = _
    unfold MetaHistoryManager.restore_last_undo_point
    rw [foldl_update_apply Tracker.restore_last_undo_point _ _ hnd i, if_pos hi]
  · intro i hi
    rw [hrun]
    show (l'.historyManager.restore_last_undo_point l'.trackers) i = _
    unfold MetaHistoryManager.restore_last_undo_point
    rw [foldl_update_apply Tracker.restore_last_undo_point _ _ hnd i, if_neg hi]

/-- Concrete level for the C5/C6 witnesses: one world manager (0, with a
checkpoint to restore to) and one non-world manager (1). -/
def c5level : BaseLevel :=
  ⟨⟨[0], [1], [[0]], [], false⟩,
   fun i => if i = 0 then ⟨6, true, [5], []⟩ else ⟨3, false, [], []⟩⟩

/-- The failing operation for the C5 witness: it mutates nothing and raises
(error code 42). -/
def c5op : BaseLevel → BaseLevel × Except Nat Nat :=
  fun l => (l, Except.error 42)

/-- Witness for C5: running the failing operation on the concrete level. -/
theorem c5_run_operation_error_witness :
    c5level.run_operation c5op true
        = (c5level.restore_last_undo_point, Except.error 42)
    ∧ (c5level.run_operation c5op true).1.historyManager
        = c5level.historyManager
    ∧ (∀ i ∈ c5level.historyManager.managers true true,
        (c5level.run_operation c5op true).1.trackers i
          = (c5level.trackers i).restore_last_undo_point)
    ∧ ∀ i : Nat, i ∉ c5level.historyManager.managers true true →
        (c5level.run_operation c5op true).1.trackers i = c5level.trackers i :=
  c5_run_operation_error c5level c5level c5op 42 true (by decide) rfl

/-! ### Claim C6 -/

/-- C6: `MetaHistoryManager.changed` is true iff the container's own
inherited changed signal is set or some registered world manager reports
changed; and the result does not depend on the state of any non-world
manager — two stores agreeing on the world managers yield the same
answer. -/
theorem c6_changed_iff (m : MetaHistoryManager) (store store' : TrackerStore) :
    (m.changed store = true ↔
      m.superChanged = true ∨ ∃ i ∈ m.worldManagers, (store i).changed = true)
    ∧ ((∀ i ∈ m.worldManagers, store i = store' i) →
        m.changed store = m.changed store') := by
  constructor
  · unfold MetaHistoryManager.changed MetaHistoryManager.managers
    simp [List.any_eq_true]
  · intro hag
    unfold MetaHistoryManager.changed MetaHistoryManager.managers
    congr 1
    apply any_congr_mem
    intro i hi
    have hi' : i ∈ m.worldManagers := by simpa using hi
    rw [hag i hi']

/-- A second store for the C6 witness, differing from `c5level`'s only at
the non-world manager 1. -/
def c6store : TrackerStore := fun i =>
  if i = 0 then ⟨6, true, [5], []⟩ else ⟨100, true, [41], [2]⟩

/-- Witness for C6: the changed signals agree although the non-world
manager's state differs. -/
theorem c6_changed_iff_witness :
    (c5level.historyManager.changed c5level.trackers = true ↔
      c5level.historyManager.superChanged = true
        ∨ ∃ i ∈ c5level.historyManager.worldManagers,
            (c5level.trackers i).changed = true)
    ∧ c5level.historyManager.changed c5level.trackers
        = c5level.historyManager.changed c6store :=
  ⟨(c6_changed_iff c5level.historyManager c5level.trackers c6store).1,
   (c6_changed_iff c5level.historyManager c5level.trackers c6store).2 (by decide)⟩

/-! ## BasePartial3DArray
(`amulet/api/partial_3d_array/base_partial_3d_array.py`) -/

/-- A `_sections` dict: Python dict from `int` section index to a section
array, whose contents are abstracted to an opaque value.  A new binding
shadows an old one; `dictLookup` takes the most recent. -/
abbrev SectionMap : Type := List (Int × Nat)

/-- The heap of `_sections` dict objects; an array holds a reference
(index) into it, so two arrays holding the same reference alias the same
dict. -/
abbrev SectionStore : Type := List SectionMap

/-- `d[k] = v` on a section dict. -/
def dictSet (m : SectionMap) (k : Int) (v : Nat) : SectionMap :=
  (k, v) :: m

/-- `d.get(k)` on a section dict. -/
def dictLookup (m : SectionMap) (k : Int) : Option Nat :=
  List.lookup k m

/-- The observable state of a `BasePartial3DArray` for the aliasing claim:
dtype (an abstract token), default value, section shape, and the reference
to its `_sections` dict.  The x/y/z slice bookkeeping of `__init__` (via
`sanitise_slice` from the absent `util` module) never touches `_sections`
and is not modelled. -/
structure BasePartial3DArray where
  dtype : Nat
  defaultValue : Nat
  sectionShape : Nat × Nat × Nat
  sectionsRef : Nat
deriving DecidableEq

/-- `BasePartial3DArray.__init__` with a `parent_array`: assert the parent
section shape and dtype equal the given ones (`none` models the
AssertionError), then alias the parent's dict —
`self._sections = parent_array._sections` is a reference assignment, not a
copy. -/
def mkFromParent (parent : BasePartial3DArray) (dtype : Nat)
    (defaultValue : Nat) (sectionShape : Nat × Nat × Nat) :
    Option BasePartial3DArray :=
  if parent.sectionShape = sectionShape ∧ parent.dtype = dtype then
    some { dtype := dtype, defaultValue := defaultValue,
           sectionShape := sectionShape, sectionsRef := parent.sectionsRef }
  else none

/-- `BasePartial3DArray.__init__` without a parent: install a fresh
`_sections` dict in the store (the per-section shape/dtype asserts act on
the section arrays, whose contents are abstract here). -/
def mkFromSections (store : SectionStore) (dtype : Nat) (defaultValue : Nat)
    (sectionShape : Nat × Nat × Nat) (sections : SectionMap) :
    SectionStore × BasePartial3DArray :=
  (store ++ [sections],
   { dtype := dtype, defaultValue := defaultValue,
     sectionShape := sectionShape, sectionsRef := store.length })

/-- `item in array` (`__contains__`): `item in self._sections`. -/
def containsSection (store : SectionStore) (a : BasePartial3DArray)
    (i : Int) : Bool :=
  match store[a.sectionsRef]? with
  | some m => (dictLookup m i).isSome
  | none => false

/-- Read a section through an array view. -/
def getSection (store : SectionStore) (a : BasePartial3DArray)
    (i : Int) : Option Nat :=
  match store[a.sectionsRef]? with
  | some m => dictLookup m i
  | none => none

/-- Materialize or overwrite a section through an array view: mutate the
dict object the view references. -/
def setSection (store : SectionStore) (a : BasePartial3DArray) (i : Int)
    (v : Nat) : SectionStore :=
  match store[a.sectionsRef]? with
  | some m => store.set a.sectionsRef (dictSet m i v)
  | none => store

/-! ### Claim C9 -/

/-- C9: a `BasePartial3DArray` built from a parent (which must have equal
`section_shape` and dtype, or the constructor asserts) shares the parent's
`_sections` mapping rather than copying it: in every later store state —
including after sections are materialized — `i in child` iff `i in parent`,
and a section written through either view is read back through the
other. -/
theorem c9_view_shares_sections (parent child : BasePartial3DArray)
    (dtype defaultValue : Nat) (shape : Nat × Nat × Nat)
    (h : mkFromParent parent dtype defaultValue shape = some child) :
    child.sectionsRef = parent.sectionsRef
    ∧ (∀ (store : SectionStore) (i : Int),
        containsSection store child i = containsSection store parent i)
    ∧ ∀ (store : SectionStore) (i : Int) (v : Nat),
        parent.sectionsRef < store.length →
          getSection (setSection store child i v) parent i = some v
          ∧ getSection (setSection store parent i v) child i = some v := by
  have href : child.sectionsRef = parent.sectionsRef := by
    unfold mkFromParent at h
    split at h
    · rw [← Option.some.inj h]
    · exact absurd h (by simp)
  refine ⟨href, ?_, ?_⟩
  · intro store i
    unfold containsSection
    rw [href]
  · intro store i v hlt
    have hm : store[parent.sectionsRef]? = some store[parent.sectionsRef] :=
      List.getElem?_eq_getElem hlt
    have hset : ∀ a : BasePartial3DArray, a.sectionsRef = parent.sectionsRef →
        setSection store a i v
          = store.set parent.sectionsRef
              (dictSet store[parent.sectionsRef] i v) := by
      intro a ha
      unfold setSection
      rw [ha, hm]
    have hget : ∀ a : BasePartial3DArray, a.sectionsRef = parent.sectionsRef →
        getSection (store.set parent.sectionsRef
            (dictSet store[parent.sectionsRef] i v)) a i = some v := by
      intro a ha
      unfold getSection
      rw [ha, List.getElem?_set_self (by simpa using hlt)]
      simp [dictLookup, dictSet]
    exact ⟨by rw [hset child href]; exact hget parent rfl,
           by rw [hset parent rfl]; exact hget child href⟩

/-- The parent array for the C9 witness. -/
def c9parent : BasePartial3DArray := ⟨3, 0, (16, 16, 16), 0⟩

/-- The child view for the C9 witness (same dtype, shape and `_sections`
reference as the parent). -/
def c9child : BasePartial3DArray := ⟨3, 0, (16, 16, 16), 0⟩

/-- Witness for C9: the child built over `c9parent` aliases its sections in
a concrete one-dict store. -/
theorem c9_view_shares_sections_witness :
    c9child.sectionsRef = c9parent.sectionsRef
    ∧ containsSection [[(2, 9)]] c9child 2 = containsSection [[(2, 9)]] c9parent 2
    ∧ (getSection (setSection [[]] c9child 3 7) c9parent 3 = some 7
        ∧ getSection (setSection [[]] c9parent 3 7) c9child 3 = some 7) :=
  ⟨(c9_view_shares_sections c9parent c9child 3 0 (16, 16, 16) rfl).1,
   (c9_view_shares_sections c9parent c9child 3 0 (16, 16, 16) rfl).2.1 [[(2, 9)]] 2,
   (c9_view_shares_sections c9parent c9child 3 0 (16, 16, 16) rfl).2.2 [[]] 3 7
     (by decide)⟩

/-! ## Anvil chunk-interface version dispatch
(`amulet/level/interfaces/chunk/anvil/anvil_14*.py`, `anvil_19*.py`) -/

/-- `Anvil1466Interface.minor_is_valid`: `1466 <= key < 1467`. -/
def Anvil1466Interface.minor_is_valid (key : Int) : Bool :=
  decide (1466 ≤ key ∧ key < 1467)

/-- `Anvil1484Interface.minor_is_valid`: `1484 <= key < 1503`. -/
def Anvil1484Interface.minor_is_valid (key : Int) : Bool :=
  decide (1484 ≤ key ∧ key < 1503)

/-- `Anvil1912Interface.minor_is_valid`: `1912 <= key < 1934`. -/
def Anvil1912Interface.minor_is_valid (key : Int) : Bool :=
  decide (1912 ≤ key ∧ key < 1934)

/-- `Anvil1934Interface.minor_is_valid`: `1934 <= key < 2203`. -/
def Anvil1934Interface.minor_is_valid (key : Int) : Bool :=
  decide (1934 ≤ key ∧ key < 2203)

/-! ### Claim C10 -/

/-- C10: for every integer data-version key, at most one of the four
interfaces accepts it — their ranges `[1466, 1467)`, `[1484, 1503)`,
`[1912, 1934)` and `[1934, 2203)` are pairwise disjoint, so version
dispatch among them is unambiguous. -/
theorem c10_version_ranges_disjoint (key : Int) :
    ¬(Anvil1466Interface.minor_is_valid key = true
        ∧ Anvil1484Interface.minor_is_valid key = true)
    ∧ ¬(Anvil1466Interface.minor_is_valid key = true
        ∧ Anvil1912Interface.minor_is_valid key = true)
    ∧ ¬(Anvil1466Interface.minor_is_valid key = true
        ∧ Anvil1934Interface.minor_is_valid key = true)
    ∧ ¬(Anvil1484Interface.minor_is_valid key = true
        ∧ Anvil1912Interface.minor_is_valid key = true)
    ∧ ¬(Anvil1484Interface.minor_is_valid key = true
        ∧ Anvil1934Interface.minor_is_valid key = true)
    ∧ ¬(Anvil1912Interface.minor_is_valid key = true
        ∧ Anvil1934Interface.minor_is_valid key = true) := by
  unfold Anvil1466Interface.minor_is_valid Anvil1484Interface.minor_is_valid
    Anvil1912Interface.minor_is_valid Anvil1934Interface.minor_is_valid
  simp only [decide_eq_true_eq]
  omega

end Amulet
